import Mathlib

/-!
Verification of the AutoExSim-CFX workflow orchestrator against its
natural-language specification.

The Python sources are shallowly embedded: strings are `List Char`,
Python `int` is `Nat`/`Int` as appropriate, Python `float` arithmetic is
modelled by exact rationals (`ℚ`), and fallible operations return
`Option`/`Except`.  Each definition mirrors one function of the sources
(`src/allocation.py`, `src/cluster_query.py`, `src/script_generator.py`,
`src/workflow_orchestrator.py`, `src/pbs_node_allocator.py`,
`src/job_monitor.py`, `src/transfer.py`).
-/

namespace AutoExSim

/-! ## Basic string helpers shared by the embeddings

Python string operations (`str.split()`, `str.strip()`, `str.upper()`,
`in`-substring test, `str.split(sep)`) modelled on `List Char`. -/

/-- Characters Python treats as whitespace for `str.split()` / `str.strip()`. -/
def pyIsSpace (c : Char) : Bool :=
  c = ' ' ∨ c = '\t' ∨ c = '\n' ∨ c = '\r' ∨ c = '\x0b' ∨ c = '\x0c'

/-- Python `str.split(sep)` for a one-character separator: splits on every
occurrence, keeping empty pieces (so `"a\nb".split('\n') = ["a","b"]` and a
trailing separator yields a trailing empty piece). -/
def splitOnChar (sep : Char) : List Char → List (List Char)
  | [] => [[]]
  | c :: cs =>
    if c = sep then [] :: splitOnChar sep cs
    else
      match splitOnChar sep cs with
      | [] => [[c]]
      | l :: ls => (c :: l) :: ls

/-- Python `str.split()` (no argument): split on runs of whitespace,
discarding empty tokens.  `acc` holds the current token reversed. -/
def wordsAux : List Char → List Char → List (List Char)
  | [], acc => if acc.isEmpty then [] else [acc.reverse]
  | c :: cs, acc =>
    if pyIsSpace c then
      if acc.isEmpty then wordsAux cs [] else acc.reverse :: wordsAux cs []
    else wordsAux cs (c :: acc)

/-- Python `str.split()` with no argument. -/
def pyWords (l : List Char) : List (List Char) := wordsAux l []

/-- Python `str.strip()`: drop leading and trailing whitespace. -/
def pyStrip (l : List Char) : List Char :=
  ((l.dropWhile pyIsSpace).reverse.dropWhile pyIsSpace).reverse

/-- Python `str.lower()` (ASCII suffices for the scheduler states involved). -/
def pyLower (l : List Char) : List Char := l.map Char.toLower

/-- Python `str.upper()`. -/
def pyUpper (l : List Char) : List Char := l.map Char.toUpper

/-! ## Script generator: queue-strategy selection

Embeds `ScriptGenerator._determine_queue_strategy`
(`src/script_generator.py`): picks the submission policy from the job
count and the available-node count. -/

/-- Embedding of `_determine_queue_strategy(job_count, available_nodes)`. -/
def determine_queue_strategy (job_count available_nodes : Nat) : String :=
  if available_nodes ≥ job_count then "parallel"
  else if available_nodes ≥ 1 then
    if job_count ≤ available_nodes * 2 then "batch" else "sequential"
  else "sequential"

/-- C3: for J ≥ 1 jobs and K available nodes, the queue-strategy selection
returns `parallel` when K ≥ J, `batch` when 1 ≤ K < J and J ≤ 2K, and
`sequential` in every other case. -/
theorem c3_queue_strategy (J K : Nat) (hJ : 1 ≤ J) :
    (K ≥ J → determine_queue_strategy J K = "parallel") ∧
    (1 ≤ K → K < J → J ≤ 2 * K → determine_queue_strategy J K = "batch") ∧
    (¬ (K ≥ J) → ¬ (1 ≤ K ∧ K < J ∧ J ≤ 2 * K) →
      determine_queue_strategy J K = "sequential") := by
  refine ⟨fun h => ?_, fun h1 h2 h3 => ?_, fun h1 h2 => ?_⟩
  · simp [determine_queue_strategy, h]
  · have : ¬ K ≥ J := by omega
    simp [determine_queue_strategy, this, h1]
    omega
  · rcases Nat.lt_or_ge K 1 with hK | hK
    · simp [determine_queue_strategy, h1]
      omega
    · have h3 : ¬ J ≤ 2 * K := by
        rcases Nat.lt_or_ge K J with hlt | hge
        · intro hc
          exact h2 ⟨hK, hlt, hc⟩
        · exact absurd hge h1
      simp [determine_queue_strategy, h1, hK, Nat.mul_comm]
      omega

/-- Witness for C3 at concrete inputs: J = 5, K = 2 gives `sequential`
(K < J and J > 2K), discharging every hypothesis. -/
theorem c3_queue_strategy_witness :
    determine_queue_strategy 5 2 = "sequential" :=
  (c3_queue_strategy 5 2 (by decide)).2.2 (by decide) (by decide)

/-! ## Cluster inventory: memory-size parsing

Embeds `ClusterQueryManager._parse_memory_size` (`src/cluster_query.py`).
The Python code uppercases the input, matches the regular expression
`(\d+(?:\.\d+)?)\s*([KMGT]?B?)` at the start of the string (trailing
characters are ignored, as with `re.match`), converts the numeral with
`float(...)` — modelled here by exact rationals, which agree with CPython
floats for integer numerals below 2^53 scaled by powers of two — and
truncates the converted value with `int(...)` (floor, as all values are
non-negative). -/

/-- The ten ASCII digit characters. -/
def digitChars : List Char :=
  ['0', '1', '2', '3', '4', '5', '6', '7', '8', '9']

/-- Value of a decimal digit string (the integer part matched by `\d+`). -/
def digitsVal (ds : List Char) : Nat :=
  ds.foldl (fun a c => 10 * a + (c.toNat - 48)) 0

/-- Value of the fractional digit string matched by `(?:\.\d+)?`. -/
def fracVal (ds : List Char) : ℚ :=
  ds.foldr (fun c a => (((c.toNat - 48 : Nat) : ℚ) + a) / 10) 0

/-- Unit dispatch of `_parse_memory_size`, applied to the remainder of the
(uppercased) string after the numeral.  The regex captures
`([KMGT]?B?)` after optional whitespace and the code dispatches on
`unit.startswith` for `K`/`M`/`G`/`T`, treating an empty unit like `M` and
a bare `B` by the final `int(size)` branch; so the result depends only on
the first non-whitespace character. -/
def mem_unit_convert (size : ℚ) (r2 : List Char) : Int :=
  match r2.dropWhile pyIsSpace with
  | 'K' :: _ => ⌊size / 1024⌋
  | 'M' :: _ => ⌊size⌋
  | 'G' :: _ => ⌊size * 1024⌋
  | 'T' :: _ => ⌊size * (1024 * 1024)⌋
  | _ => ⌊size⌋

/-- Embedding of `_parse_memory_size(memory_str)`: returns megabytes, `0`
on empty input or when the regex does not match. -/
def parse_memory_size (s : List Char) : Int :=
  if s.isEmpty then 0
  else if ((pyUpper s).takeWhile Char.isDigit).isEmpty then 0
  else
    match (pyUpper s).dropWhile Char.isDigit with
    | '.' :: rest =>
      if (rest.takeWhile Char.isDigit).isEmpty then
        mem_unit_convert (digitsVal ((pyUpper s).takeWhile Char.isDigit)) ('.' :: rest)
      else
        mem_unit_convert
          (digitsVal ((pyUpper s).takeWhile Char.isDigit) +
            fracVal (rest.takeWhile Char.isDigit))
          (rest.dropWhile Char.isDigit)
    | r1 => mem_unit_convert (digitsVal ((pyUpper s).takeWhile Char.isDigit)) r1

theorem toUpper_digitChar {c : Char} (h : c ∈ digitChars) : c.toUpper = c := by
  fin_cases h <;> decide

theorem isDigit_digitChar {c : Char} (h : c ∈ digitChars) : c.isDigit = true := by
  fin_cases h <;> decide

theorem takeWhile_append_all {p : Char → Bool} {l1 l2 : List Char}
    (h : ∀ c ∈ l1, p c = true) :
    (l1 ++ l2).takeWhile p = l1 ++ l2.takeWhile p := by
  induction l1 with
  | nil => simp
  | cons c cs ih =>
    have hc := h c (List.mem_cons_self c cs)
    simp [List.cons_append, List.takeWhile_cons, hc,
      ih fun x hx => h x (List.mem_cons_of_mem c hx)]

theorem dropWhile_append_all {p : Char → Bool} {l1 l2 : List Char}
    (h : ∀ c ∈ l1, p c = true) :
    (l1 ++ l2).dropWhile p = l2.dropWhile p := by
  induction l1 with
  | nil => simp
  | cons c cs ih =>
    have hc := h c (List.mem_cons_self c cs)
    simp [List.cons_append, List.dropWhile_cons, hc,
      ih fun x hx => h x (List.mem_cons_of_mem c hx)]

/-- True when a list does not begin with a digit or a decimal point, so
that prepending it to a numeral cannot extend the regex's numeral match. -/
def nonNumericHead (l : List Char) : Bool :=
  match l with
  | [] => true
  | c :: _ => !c.isDigit && !(c = '.')

/-- Splitting lemma for the memory parser: a non-empty digit string
followed by a non-numeric remainder parses as the digit value fed to the
unit dispatcher. -/
theorem parse_memory_size_split (ds rest : List Char) (h1 : ds ≠ [])
    (h2 : ∀ c ∈ ds, c ∈ digitChars)
    (h3 : nonNumericHead (pyUpper rest) = true) :
    parse_memory_size (ds ++ rest) = mem_unit_convert (digitsVal ds) (pyUpper rest) := by
  have hup : pyUpper (ds ++ rest) = ds ++ pyUpper rest := by
    unfold pyUpper
    rw [List.map_append]
    congr 1
    have : List.map Char.toUpper ds = List.map id ds :=
      List.map_congr_left fun c hc => toUpper_digitChar (h2 c hc)
    simpa using this
  have hdig : ∀ c ∈ ds, Char.isDigit c = true := fun c hc => isDigit_digitChar (h2 c hc)
  have hh3 : ∀ c cs, pyUpper rest = c :: cs → c.isDigit = false ∧ c ≠ '.' := by
    intro c cs hu
    rw [hu] at h3
    unfold nonNumericHead at h3
    simp only [Bool.and_eq_true, Bool.not_eq_true', decide_eq_false_iff_not] at h3
    exact ⟨h3.1, by simpa using h3.2⟩
  have htw : (pyUpper rest).takeWhile Char.isDigit = [] := by
    cases hu : pyUpper rest with
    | nil => simp
    | cons c cs =>
      have := (hh3 c cs hu).1
      simp [List.takeWhile_cons, this]
  have hdw : (pyUpper rest).dropWhile Char.isDigit = pyUpper rest := by
    cases hu : pyUpper rest with
    | nil => simp
    | cons c cs =>
      have := (hh3 c cs hu).1
      simp [List.dropWhile_cons, this]
  unfold parse_memory_size
  rw [if_neg (by simp [h1]), hup, takeWhile_append_all hdig, htw,
    dropWhile_append_all hdig, hdw, List.append_nil,
    if_neg (by simp [h1])]
  split
  · rename_i rest' heq
    exact absurd rfl (hh3 '.' rest' heq).2
  · rfl

theorem floor_ratCast_div_1024 (v : Nat) :
    ⌊(v : ℚ) / 1024⌋ = ((v / 1024 : Nat) : Int) := by
  rw [← Int.natCast_floor_eq_floor (by positivity), Nat.floor_div_ofNat,
    Nat.floor_natCast]

theorem floor_ratCast_mul_1024 (v : Nat) :
    ⌊(v : ℚ) * 1024⌋ = ((v * 1024 : Nat) : Int) := by
  rw [show ((v : ℚ) * 1024) = (((v * 1024 : Nat)) : ℚ) by push_cast; ring]
  exact Int.floor_natCast _

theorem floor_ratCast_mul_1024_sq (v : Nat) :
    ⌊(v : ℚ) * (1024 * 1024)⌋ = ((v * 1024 * 1024 : Nat) : Int) := by
  rw [show ((v : ℚ) * (1024 * 1024)) = (((v * 1024 * 1024 : Nat)) : ℚ) by
    push_cast; ring]
  exact Int.floor_natCast _

/-- All case variants of the `K` unit: `K`/`k` with optional `B`/`b`. -/
def kUnitForms : List (List Char) :=
  [['K'], ['k'], ['K', 'B'], ['K', 'b'], ['k', 'B'], ['k', 'b']]

/-- Unit variants treated as megabytes: bare number, bare `B`, and `M`
with optional `B` (all case combinations). -/
def mUnitForms : List (List Char) :=
  [[], ['B'], ['b'], ['M'], ['m'], ['M', 'B'], ['M', 'b'], ['m', 'B'], ['m', 'b']]

/-- All case variants of the `G` unit. -/
def gUnitForms : List (List Char) :=
  [['G'], ['g'], ['G', 'B'], ['G', 'b'], ['g', 'B'], ['g', 'b']]

/-- All case variants of the `T` unit. -/
def tUnitForms : List (List Char) :=
  [['T'], ['t'], ['T', 'B'], ['T', 'b'], ['t', 'B'], ['t', 'b']]

/-- C6: the memory parser maps `<num><unit>` (unit K/M/G/T, optional B,
case-insensitive) to megabytes: K divides by 1024 (integer division),
M or a bare number or a bare B leaves the value unchanged, G multiplies
by 1024, T by 1024².  The bound `digitsVal ds < 2^53` keeps the rational
model of CPython float arithmetic exact. -/
theorem c6_memory_parse (ds : List Char) (h1 : ds ≠ [])
    (h2 : ∀ c ∈ ds, c ∈ digitChars) (hr : digitsVal ds < 2 ^ 53) :
    (∀ u ∈ kUnitForms,
      parse_memory_size (ds ++ u) = ((digitsVal ds / 1024 : Nat) : Int)) ∧
    (∀ u ∈ mUnitForms,
      parse_memory_size (ds ++ u) = ((digitsVal ds : Nat) : Int)) ∧
    (∀ u ∈ gUnitForms,
      parse_memory_size (ds ++ u) = ((digitsVal ds * 1024 : Nat) : Int)) ∧
    (∀ u ∈ tUnitForms,
      parse_memory_size (ds ++ u) = ((digitsVal ds * 1024 * 1024 : Nat) : Int)) := by
  refine ⟨?_, ?_, ?_, ?_⟩ <;> intro u hu <;> fin_cases hu <;>
    rw [parse_memory_size_split ds _ h1 h2 (by decide)] <;>
    simp [mem_unit_convert, pyUpper, pyIsSpace, floor_ratCast_div_1024,
      floor_ratCast_mul_1024, floor_ratCast_mul_1024_sq, Int.floor_natCast]

/-- Witness for C6: `"0kb"` parses to 0 MB and `"2GB"` parses to 2048 MB. -/
theorem c6_memory_parse_witness :
    parse_memory_size ['0', 'k', 'b'] = 0 ∧
    parse_memory_size ['2', 'G', 'B'] = 2048 :=
  ⟨((c6_memory_parse ['0'] (by decide) (by decide) (by decide)).1
      ['k', 'b'] (by decide)).trans (by decide),
   ((c6_memory_parse ['2'] (by decide) (by decide) (by decide)).2.2.1
      ['G', 'B'] (by decide)).trans (by decide)⟩

/-! ## Cluster inventory: node-state normalization and availability

Embeds `_normalize_slurm_state`, `_is_slurm_node_available`,
`_normalize_pbs_state` and `_is_pbs_node_available`
(`src/cluster_query.py`).  Both node-record builders apply the
normalizer and the availability test to the same raw state string. -/

/-- The SLURM raw-state → normalized-state table of `_normalize_slurm_state`. -/
def slurm_state_table : List (List Char × List Char) :=
  [("idle".data, "idle".data), ("alloc".data, "allocated".data),
   ("mix".data, "mixed".data), ("down".data, "down".data),
   ("drain".data, "draining".data), ("comp".data, "completing".data),
   ("resv".data, "reserved".data)]

/-- Embedding of `_normalize_slurm_state`: look the lowercased raw state
up in the table and fall back to the raw state itself. -/
def normalize_slurm_state (state : List Char) : List Char :=
  ((slurm_state_table).lookup (pyLower state)).getD state

/-- Embedding of `_is_slurm_node_available`. -/
def is_slurm_node_available (state : List Char) : Bool :=
  decide (pyLower state ∈ (["idle".data, "mix".data] : List (List Char)))

/-- The PBS raw-state → normalized-state table of `_normalize_pbs_state`. -/
def pbs_state_table : List (List Char × List Char) :=
  [("free".data, "idle".data), ("job-exclusive".data, "allocated".data),
   ("job-sharing".data, "mixed".data), ("down".data, "down".data),
   ("offline".data, "offline".data), ("busy".data, "busy".data),
   ("state-unknown".data, "unknown".data)]

/-- Embedding of `_normalize_pbs_state`. -/
def normalize_pbs_state (state : List Char) : List Char :=
  ((pbs_state_table).lookup (pyLower state)).getD state

/-- Embedding of `_is_pbs_node_available`. -/
def is_pbs_node_available (state : List Char) : Bool :=
  decide (pyLower state ∈ (["free".data] : List (List Char)))

/-- The idle-like normalized states of the SLURM dialect (spec §4.3). -/
def slurmIdleLikeStates : List (List Char) := ["idle".data, "mixed".data]

/-- The idle-like normalized states of the PBS dialect (spec §4.3). -/
def pbsIdleLikeStates : List (List Char) := ["idle".data]

/-- Counterexample for C4 as stated: the claim demands that every raw
state outside the dialect's raw idle set yields a normalized state
outside the idle-like set, but unmapped raw states pass through the
normalizer unchanged: SLURM raw `"mixed"` is unavailable yet normalizes
to `"mixed"` ∈ idle-like, and PBS raw `"idle"` is unavailable yet
normalizes to `"idle"` ∈ idle-like. -/
theorem c4_availability_counterexample :
    (is_slurm_node_available "mixed".data = false ∧
      normalize_slurm_state "mixed".data ∈ slurmIdleLikeStates) ∧
    (is_pbs_node_available "idle".data = false ∧
      normalize_pbs_state "idle".data ∈ pbsIdleLikeStates) := by
  decide

/-- C4 (amended): availability is decided directly on the lowercased raw
state — SLURM `idle`/`mix`, PBS `free` — and an available node's
normalized state is idle-like; the converse direction of the original
claim does not hold because unmapped raw states pass through
normalization unchanged. -/
theorem c4_availability_amended (raw : List Char) :
    (is_slurm_node_available raw = true ↔
      pyLower raw = "idle".data ∨ pyLower raw = "mix".data) ∧
    (is_slurm_node_available raw = true →
      normalize_slurm_state raw ∈ slurmIdleLikeStates) ∧
    (is_pbs_node_available raw = true ↔ pyLower raw = "free".data) ∧
    (is_pbs_node_available raw = true →
      normalize_pbs_state raw ∈ pbsIdleLikeStates) := by
  refine ⟨?_, ?_, ?_, ?_⟩
  · simp [is_slurm_node_available]
  · intro h
    rcases (by simpa [is_slurm_node_available] using h :
        pyLower raw = "idle".data ∨ pyLower raw = "mix".data) with hc | hc <;>
      simp [normalize_slurm_state, slurm_state_table, hc, List.lookup,
        slurmIdleLikeStates]
  · simp [is_pbs_node_available]
  · intro h
    have hc : pyLower raw = "free".data := by
      simpa [is_pbs_node_available] using h
    simp [normalize_pbs_state, pbs_state_table, hc, List.lookup,
      pbsIdleLikeStates]

/-- Witness for C4 (amended) at raw state `"mix"`: available, and the
normalized state `"mixed"` is idle-like. -/
theorem c4_availability_amended_witness :
    is_slurm_node_available "mix".data = true ∧
    normalize_slurm_state "mix".data ∈ slurmIdleLikeStates :=
  ⟨by decide, (c4_availability_amended "mix".data).2.1 (by decide)⟩

/-! ## Orchestrator: parsing the submission stdout

Embeds the job-id parsing loop of `WorkflowOrchestrator._submit_jobs`
(`src/workflow_orchestrator.py`, lines 412–425): for every line of the
driver's stdout containing the substring `Submitted batch job`, record
the last whitespace-separated token of the stripped line as `job_id`;
an empty token list (impossible for such lines) is skipped by the
`except` handler. -/

/-- The literal substring tested with Python's `in` operator. -/
def submittedMarker : List Char := "Submitted batch job".data

/-- Python's substring test `needle in haystack`. -/
def containsSub (needle : List Char) : List Char → Bool
  | [] => needle.isEmpty
  | c :: cs => needle.isPrefixOf (c :: cs) || containsSub needle cs

/-- One entry of the `submitted_jobs` list (`job_id`, `output_line`). -/
structure SubmittedJob where
  jobId : List Char
  outputLine : List Char
  deriving DecidableEq, Repr

/-- Processing of a single stdout line by `_submit_jobs`. -/
def record_of_line (line : List Char) : Option SubmittedJob :=
  if containsSub submittedMarker line then
    match (pyWords (pyStrip line)).getLast? with
    | some t => some ⟨t, pyStrip line⟩
    | none => none
  else none

/-- Embedding of the parsing loop of `_submit_jobs` over the stdout text. -/
def parse_submitted_jobs (output : List Char) : List SubmittedJob :=
  (splitOnChar '\n' output).filterMap record_of_line

/-- The spec's regular expression `^Submitted batch job <digits>$` as a
Boolean matcher (spec-side definition used to state C2). -/
def spec_submitted_line (l : List Char) : Bool :=
  (submittedMarker ++ [' ']).isPrefixOf l &&
  (let ds := l.drop (submittedMarker.length + 1)
   !ds.isEmpty && ds.all fun c => decide (c ∈ digitChars))

theorem digitChar_not_space {c : Char} (h : c ∈ digitChars) :
    pyIsSpace c = false := by
  fin_cases h <;> decide

theorem mem_dropWhile_of_neg {p : Char → Bool} {c : Char} (hc : p c = false) :
    ∀ l : List Char, c ∈ l → c ∈ l.dropWhile p := by
  intro l hl
  induction l with
  | nil => cases hl
  | cons a as ih =>
    by_cases ha : p a = true
    · rcases List.mem_cons.1 hl with rfl | hm
      · rw [ha] at hc; cases hc
      · simpa [List.dropWhile_cons, ha] using ih hm
    · simpa [List.dropWhile_cons, ha] using hl

theorem mem_pyStrip_of_neg {c : Char} (hc : pyIsSpace c = false)
    {l : List Char} (hl : c ∈ l) : c ∈ pyStrip l := by
  unfold pyStrip
  rw [List.mem_reverse]
  exact mem_dropWhile_of_neg hc _
    (by rw [List.mem_reverse]; exact mem_dropWhile_of_neg hc _ hl)

theorem wordsAux_ne_nil {l acc : List Char}
    (h : (∃ c ∈ l, pyIsSpace c = false) ∨ acc ≠ []) : wordsAux l acc ≠ [] := by
  induction l generalizing acc with
  | nil =>
    rcases h with ⟨c, hc, _⟩ | h
    · cases hc
    · simp [wordsAux, List.isEmpty_iff, h]
  | cons a as ih =>
    by_cases ha : pyIsSpace a = true
    · by_cases hacc : acc.isEmpty = true
      · have hex : ∃ c ∈ as, pyIsSpace c = false := by
          rcases h with ⟨c, hc, hcs⟩ | hne
          · rcases List.mem_cons.1 hc with rfl | hm
            · rw [ha] at hcs; cases hcs
            · exact ⟨c, hm, hcs⟩
          · exact absurd (List.isEmpty_iff.1 hacc) hne
        simpa [wordsAux, ha, hacc] using ih (Or.inl hex)
      · simp [wordsAux, ha, hacc]
    · simp only [wordsAux, ha]
      exact ih (Or.inr (by simp))

theorem containsSub_of_prefix {n l : List Char} (h : n <+: l) :
    containsSub n l = true := by
  cases l with
  | nil =>
    have hn : n = [] := List.prefix_nil.1 h
    simp [containsSub, hn]
  | cons c cs =>
    simp only [containsSub, Bool.or_eq_true]
    exact Or.inl (List.isPrefixOf_iff_prefix.2 h)

theorem mem_of_containsSub {n l : List Char} (h : containsSub n l = true)
    {c : Char} (hc : c ∈ n) : c ∈ l := by
  induction l with
  | nil =>
    have hn : n = [] := by simpa [containsSub, List.isEmpty_iff] using h
    rw [hn] at hc; cases hc
  | cons a as ih =>
    simp only [containsSub, Bool.or_eq_true] at h
    rcases h with h | h
    · exact (List.isPrefixOf_iff_prefix.1 h).subset hc
    · exact List.mem_cons_of_mem a (ih h)

theorem record_of_line_isSome (l : List Char) :
    (record_of_line l).isSome = containsSub submittedMarker l := by
  by_cases h : containsSub submittedMarker l = true
  · have hS : ('S' : Char) ∈ l := mem_of_containsSub h (by decide)
    have hw : pyWords (pyStrip l) ≠ [] :=
      wordsAux_ne_nil (Or.inl ⟨'S', mem_pyStrip_of_neg (by decide) hS, by decide⟩)
    rw [record_of_line, if_pos h, h]
    cases hg : (pyWords (pyStrip l)).getLast? with
    | none => exact absurd (List.getLast?_eq_none_iff.1 hg) hw
    | some t => rfl
  · rw [record_of_line, if_neg h]
    simp [eq_comm, h]

theorem length_filterMap_eq_length_filter {α β : Type} (f : α → Option β)
    (p : α → Bool) :
    ∀ L : List α, (∀ x ∈ L, (f x).isSome = p x) →
      (L.filterMap f).length = (L.filter p).length := by
  intro L
  induction L with
  | nil => intro _; rfl
  | cons a as ih =>
    intro h
    have ha := h a (List.mem_cons_self a as)
    have hrec := ih fun x hx => h x (List.mem_cons_of_mem a hx)
    cases hfa : f a with
    | none =>
      rw [hfa] at ha
      simp [List.filterMap_cons, List.filter_cons, hfa, ← ha, hrec]
    | some b =>
      rw [hfa] at ha
      simp [List.filterMap_cons, List.filter_cons, hfa, ← ha, hrec]

theorem wordsAux_all_nonspace :
    ∀ (ds acc : List Char), ds ≠ [] → (∀ c ∈ ds, pyIsSpace c = false) →
      wordsAux ds acc = [acc.reverse ++ ds] := by
  intro ds
  induction ds with
  | nil => intro acc h _; cases h rfl
  | cons c cs ih =>
    intro acc _ h2
    have hc := h2 c (List.mem_cons_self c cs)
    cases cs with
    | nil => simp [wordsAux, hc]
    | cons e es =>
      rw [wordsAux]
      simp only [hc, Bool.false_eq_true, if_false]
      rw [ih (c :: acc) (by simp)
        (fun x hx => h2 x (List.mem_cons_of_mem c hx))]
      simp [List.reverse_cons, List.append_assoc]

theorem pyStrip_marker_line (ds : List Char) (h1 : ds ≠ [])
    (h2 : ∀ c ∈ ds, c ∈ digitChars) :
    pyStrip (submittedMarker ++ ' ' :: ds) = submittedMarker ++ ' ' :: ds := by
  unfold pyStrip
  have hdw : (submittedMarker ++ ' ' :: ds).dropWhile pyIsSpace =
      submittedMarker ++ ' ' :: ds := by
    rw [submittedMarker]
    simp +decide [List.dropWhile_cons]
  rw [hdw]
  have hrev : (submittedMarker ++ ' ' :: ds).reverse =
      ds.reverse ++ (' ' :: submittedMarker.reverse) := by
    simp [List.reverse_append, List.reverse_cons, List.append_assoc]
  rw [hrev]
  obtain ⟨d, dr, hd⟩ : ∃ d dr, ds.reverse = d :: dr := by
    cases hr : ds.reverse with
    | nil => exact absurd (List.reverse_eq_nil_iff.1 hr) h1
    | cons d dr => exact ⟨d, dr, rfl⟩
  have hdmem : d ∈ ds := by
    rw [← List.mem_reverse, hd]; exact List.mem_cons_self d dr
  have hdns : pyIsSpace d = false := digitChar_not_space (h2 d hdmem)
  rw [hd, List.cons_append, List.dropWhile_cons]
  simp only [hdns, Bool.false_eq_true, if_false]
  rw [← List.cons_append, ← hd, ← hrev, List.reverse_reverse]

theorem pyWords_marker_line (ds : List Char) (h1 : ds ≠ [])
    (h2 : ∀ c ∈ ds, pyIsSpace c = false) :
    pyWords (submittedMarker ++ ' ' :: ds) =
      ["Submitted".data, "batch".data, "job".data, ds] := by
  have hend := wordsAux_all_nonspace ds [] h1 h2
  rw [pyWords, submittedMarker]
  simp +decide [wordsAux, hend]

/-- Counterexample for C2 as stated: the stdout `"Submitted batch job abc"`
contains no line matching `^Submitted batch job <digits>$`, yet the parser
returns one job record (with the non-digit `job_id` `"abc"`), so the count
of returned records differs from the count of matching lines. -/
theorem c2_submit_parse_counterexample :
    (parse_submitted_jobs "Submitted batch job abc".data).length = 1 ∧
    ((splitOnChar '\n' "Submitted batch job abc".data).countP
      spec_submitted_line) = 0 ∧
    (parse_submitted_jobs "Submitted batch job abc".data).map
      SubmittedJob.jobId = ["abc".data] := by
  decide

/-- C2 (amended): the submitter returns exactly one record per stdout line
containing the substring `Submitted batch job` (the count equals the number
of such lines, which is at least the number of regex-matching lines), and a
line of the exact form `Submitted batch job <digits>` yields the record
carrying those digits as `job_id`. -/
theorem c2_submit_parse_amended (output : List Char) :
    (parse_submitted_jobs output).length =
      ((splitOnChar '\n' output).filter
        fun l => containsSub submittedMarker l).length ∧
    ∀ ds : List Char, ds ≠ [] → (∀ c ∈ ds, c ∈ digitChars) →
      record_of_line (submittedMarker ++ ' ' :: ds) =
        some ⟨ds, submittedMarker ++ ' ' :: ds⟩ := by
  constructor
  · exact length_filterMap_eq_length_filter record_of_line
      (fun l => containsSub submittedMarker l) (splitOnChar '\n' output)
      fun l _ => record_of_line_isSome l
  · intro ds h1 h2
    have hnsp : ∀ c ∈ ds, pyIsSpace c = false :=
      fun c hc => digitChar_not_space (h2 c hc)
    have hcont : containsSub submittedMarker (submittedMarker ++ ' ' :: ds) = true :=
      containsSub_of_prefix (List.prefix_append _ _)
    rw [record_of_line, if_pos hcont, pyStrip_marker_line ds h1 h2,
      pyWords_marker_line ds h1 hnsp]
    simp [List.getLast?_cons_cons, List.getLast?_singleton]

/-- Witness for C2 (amended) on the stdout `"ok\nSubmitted batch job 42"`:
one record, and the regex line's record carries `job_id = "42"`. -/
theorem c2_submit_parse_amended_witness :
    (parse_submitted_jobs "ok\nSubmitted batch job 42".data).length =
      ((splitOnChar '\n' "ok\nSubmitted batch job 42".data).filter
        fun l => containsSub submittedMarker l).length ∧
    record_of_line (submittedMarker ++ ' ' :: ['4', '2']) =
      some ⟨['4', '2'], submittedMarker ++ ' ' :: ['4', '2']⟩ :=
  ⟨(c2_submit_parse_amended "ok\nSubmitted batch job 42".data).1,
   (c2_submit_parse_amended "ok\nSubmitted batch job 42".data).2
     ['4', '2'] (by decide) (by decide)⟩

/-! ## PBS node allocator

Embeds `PBSNodeAllocator._convert_to_short_name`, `build_nodes_spec` and
`_allocate_multi_node` (`src/pbs_node_allocator.py`).  The `job` dict
argument of `_allocate_multi_node` is unused there (the required core
count is passed separately), so it is dropped; the `current_load` and
`max_jobs` fields of the `PBSNodeSpec` dataclass are never read by these
functions and are likewise dropped; warning strings are abbreviated to
fixed English tags, their content being purely informational. -/

/-- The fields of the `PBSNodeSpec` dataclass read by the allocator. -/
structure PBSNodeSpec where
  node_name : List Char
  ppn : Int
  available : Bool
  deriving DecidableEq, Repr

/-- Python `str(i)` for an integer. -/
def intChars (i : Int) : List Char :=
  if i < 0 then '-' :: Nat.toDigits 10 i.natAbs else Nat.toDigits 10 i.natAbs

/-- Python `sep.join(parts)` for a one-character separator. -/
def joinSep (sep : Char) : List (List Char) → List Char
  | [] => []
  | [x] => x
  | x :: y :: ys => x ++ sep :: joinSep sep (y :: ys)

/-- Embedding of `_convert_to_short_name`: `node41 → n41`, anything not
starting with `node` is kept as is. -/
def convert_to_short_name (n : List Char) : List Char :=
  if "node".data.isPrefixOf n then 'n' :: n.drop 4 else n

/-- Embedding of `build_nodes_spec`: short name plus `:ppn=` count for
every available spec, joined with `+`. -/
def build_nodes_spec (specs : List PBSNodeSpec) : List Char :=
  joinSep '+'
    ((specs.filter fun s => s.available).map fun s =>
      convert_to_short_name s.node_name ++ ":ppn=".data ++ intChars s.ppn)

/-- Embedding of `PBSAllocationResult`. -/
structure PBSAllocationResult where
  nodes_spec : List Char
  total_cpus : Int
  node_count : Nat
  allocated_nodes : List (List Char)
  load_distribution : List (List Char × Int)
  warnings : List (List Char)
  deriving DecidableEq, Repr

/-- One insertion step of a stable descending-by-`ppn` sort. -/
def insertPpnDesc (x : PBSNodeSpec) : List PBSNodeSpec → List PBSNodeSpec
  | [] => [x]
  | y :: ys => if y.ppn < x.ppn then x :: y :: ys else y :: insertPpnDesc x ys

/-- Stable sort by `ppn` descending, modelling Python's stable
`sorted(nodes, key=lambda x: x.ppn, reverse=True)` (any stable sort
produces the same list for a total preorder comparator). -/
def sortPpnDesc (l : List PBSNodeSpec) : List PBSNodeSpec :=
  l.foldl (fun acc x => insertPpnDesc x acc) []

/-- The standard multi-node fill loop of `_allocate_multi_node`, returning
(allocated specs, names, total cpus, load distribution, leftover cpus). -/
def multi_node_fill (remaining : Int) :
    List PBSNodeSpec →
      List PBSNodeSpec × List (List Char) × Int × List (List Char × Int) × Int
  | [] => ([], [], 0, [], remaining)
  | n :: ns =>
    if !n.available || remaining ≤ 0 then multi_node_fill remaining ns
    else
      let c := min remaining n.ppn
      if c > 0 then
        match multi_node_fill (remaining - c) ns with
        | (sp, nm, t, ld, rem) =>
          (n :: sp, n.node_name :: nm, n.ppn + t, (n.node_name, c) :: ld, rem)
      else multi_node_fill remaining ns

/-- Embedding of `_allocate_multi_node(job, available_nodes, required_cpus)`:
for a 32- or 44-core request, a free 28-core and a free 16-core node are
combined; otherwise the nodes are filled large-first. -/
def allocate_multi_node (required_cpus : Int) (available_nodes : List PBSNodeSpec) :
    PBSAllocationResult :=
  let sorted := sortPpnDesc available_nodes
  let std : PBSAllocationResult :=
    match multi_node_fill required_cpus sorted with
    | (sp, nm, t, ld, rem) =>
      ⟨build_nodes_spec sp, t, sp.length, nm, ld,
        if rem > 0 then ["unallocated cpus remain".data] else []⟩
  if required_cpus = 32 ∨ required_cpus = 44 then
    match sorted.find? (fun n => n.ppn == 28 && n.available),
        sorted.find? (fun n => n.ppn == 16 && n.available) with
    | some n28, some n16 =>
      ⟨build_nodes_spec [n28, n16], n28.ppn + n16.ppn, 2,
        [n28.node_name, n16.node_name],
        (if required_cpus = 32 then
          [(n28.node_name, (28 : Int)), (n16.node_name, 4)]
        else [(n28.node_name, 28), (n16.node_name, 16)]),
        (if required_cpus = 32 then ["optimized 28+16 allocation".data]
         else ["perfect 28+16 match".data])⟩
    | _, _ => std
  else std

/-- C7: when the multi-node path is asked for 32 or 44 cores and the node
pool has a free 28-core node `a` and a free 16-core node `b` (the first
such nodes of the capacity-sorted list, named `node<NN>`), it returns the
spec `n<NA>:ppn=28+n<NB>:ppn=16` with 44 total allocated cores. -/
theorem c7_pbs_special_fit (req : Int) (ns : List PBSNodeSpec)
    (a b : PBSNodeSpec) (na nb : List Char)
    (hreq : req = 32 ∨ req = 44)
    (ha : (sortPpnDesc ns).find? (fun n => n.ppn == 28 && n.available) = some a)
    (hb : (sortPpnDesc ns).find? (fun n => n.ppn == 16 && n.available) = some b)
    (hna : a.node_name = "node".data ++ na)
    (hnb : b.node_name = "node".data ++ nb) :
    (allocate_multi_node req ns).nodes_spec =
      'n' :: (na ++ ":ppn=28+".data ++ ('n' :: (nb ++ ":ppn=16".data))) ∧
    (allocate_multi_node req ns).total_cpus = 44 := by
  have hpa := List.find?_some ha
  have hpb := List.find?_some hb
  simp only [Bool.and_eq_true, beq_iff_eq] at hpa hpb
  have hreq' : (req = 32 ∨ req = 44) = True := by simp [hreq]
  rw [allocate_multi_node]
  simp only [hreq', if_true, ha, hb]
  constructor
  · rw [build_nodes_spec]
    simp only [List.filter, hpa.2, hpb.2, List.map, joinSep]
    rw [hpa.1, hpb.1, convert_to_short_name, convert_to_short_name, hna, hnb]
    rw [if_pos (List.isPrefixOf_iff_prefix.2 (List.prefix_append _ _)),
      if_pos (List.isPrefixOf_iff_prefix.2 (List.prefix_append _ _))]
    have hdrop : ∀ x : List Char, ("node".data ++ x).drop 4 = x := fun x =>
      List.drop_left "node".data x
    have h28 : intChars 28 = ['2', '8'] := by decide
    have h16 : intChars 16 = ['1', '6'] := by decide
    rw [hdrop, hdrop, h28, h16]
    simp [List.append_assoc]
  · rw [hpa.1, hpb.1]
    rfl

/-- Witness for C7: two concrete nodes `node41` (28 cores) and `node61`
(16 cores), request 44 → spec `n41:ppn=28+n61:ppn=16`, 44 cores. -/
theorem c7_pbs_special_fit_witness :
    (allocate_multi_node 44
        [⟨"node41".data, 28, true⟩, ⟨"node61".data, 16, true⟩]).nodes_spec =
      "n41:ppn=28+n61:ppn=16".data ∧
    (allocate_multi_node 44
        [⟨"node41".data, 28, true⟩, ⟨"node61".data, 16, true⟩]).total_cpus = 44 :=
  have h := c7_pbs_special_fit 44
    [⟨"node41".data, 28, true⟩, ⟨"node61".data, 16, true⟩]
    ⟨"node41".data, 28, true⟩ ⟨"node61".data, 16, true⟩
    "41".data "61".data (Or.inr rfl) (by decide) (by decide) (by decide) (by decide)
  ⟨h.1.trans (by decide), h.2⟩

/-! ## Job monitor

Embeds `JobState`, `_parse_slurm_state`, `_check_slurm_job`,
`_has_active_jobs`, `_check_all_jobs` and the `monitor_jobs` polling loop
(`src/job_monitor.py`).  A status check is a pure function of the remote
command results, so `_check_slurm_job` takes the exit codes and stdout
texts of the `sacct` and the (fallback) `squeue` invocations; the loop is
modelled with explicit fuel and a cycle-indexed oracle supplying each
job's freshly checked state, `none` standing for a loop that is still
running when the fuel runs out. -/

/-- The `JobState` enumeration. -/
inductive JobState where
  | pending
  | running
  | completed
  | failed
  | cancelled
  | timeout
  | unknown
  deriving DecidableEq, Repr

/-- The SLURM job-state table of `_parse_slurm_state`. -/
def slurm_job_state_table : List (List Char × JobState) :=
  [("PENDING".data, .pending), ("RUNNING".data, .running),
   ("COMPLETED".data, .completed), ("CANCELLED".data, .cancelled),
   ("FAILED".data, .failed), ("TIMEOUT".data, .timeout),
   ("NODE_FAIL".data, .failed), ("PREEMPTED".data, .cancelled),
   ("OUT_OF_MEMORY".data, .failed)]

/-- Embedding of `_parse_slurm_state`: uppercase, look up, default unknown. -/
def parse_slurm_state (s : List Char) : JobState :=
  ((slurm_job_state_table).lookup (pyUpper s)).getD .unknown

/-- The first usable `sacct` row: the first line whose strip is non-empty
and which splits into at least 3 `|`-separated parts. -/
def sacct_first_row (out : List Char) : Option (List (List Char)) :=
  (splitOnChar '\n' out).findSome? fun line =>
    if (pyStrip line).isEmpty then none
    else
      let parts := splitOnChar '|' line
      if parts.length ≥ 3 then some parts else none

/-- Embedding of `_check_slurm_job` as a function of the `sacct` and
`squeue` results (exit status, stdout). -/
def check_slurm_job (sacct_exit : Nat) (sacct_out : List Char)
    (squeue_exit : Nat) (squeue_out : List Char) : JobState :=
  if sacct_exit ≠ 0 then
    if squeue_exit = 0 then
      if (pyStrip squeue_out).isEmpty then .completed
      else parse_slurm_state (pyStrip squeue_out)
    else .completed
  else
    if (pyStrip sacct_out).isEmpty then .unknown
    else
      match sacct_first_row (pyStrip sacct_out) with
      | some parts => parse_slurm_state ((parts.get? 1).getD [])
      | none => .unknown

/-- Embedding of `_has_active_jobs`: some job is pending or running. -/
def has_active_jobs (states : List JobState) : Bool :=
  states.any fun s => s == .pending || s == .running

/-- Terminal job states per the spec glossary. -/
def terminal_job_state (s : JobState) : Bool :=
  s == .completed || s == .failed || s == .cancelled || s == .timeout

/-- Embedding of `_check_all_jobs` for one cycle: jobs already completed,
failed or cancelled are skipped; every other job gets the state produced
by its status check (the oracle). -/
def check_all_jobs (oracle : Nat → JobState) : Nat → List JobState → List JobState
  | _, [] => []
  | i, s :: ss =>
    (if s = .completed ∨ s = .failed ∨ s = .cancelled then s else oracle i) ::
      check_all_jobs oracle (i + 1) ss

/-- Embedding of the `monitor_jobs` while loop: poll while some job is
active, re-check all jobs each cycle, break as soon as no job is active;
`some` is normal termination, `none` means the fuel ran out while jobs
were still active. -/
def monitor_loop (oracle : Nat → Nat → JobState) :
    Nat → Nat → List JobState → Option (List JobState)
  | 0, _, states => if has_active_jobs states then none else some states
  | fuel + 1, cycle, states =>
    if has_active_jobs states then
      if has_active_jobs (check_all_jobs (oracle cycle) 0 states) then
        monitor_loop oracle fuel (cycle + 1) (check_all_jobs (oracle cycle) 0 states)
      else some (check_all_jobs (oracle cycle) 0 states)
    else some states

/-- Counterexample for C8 as stated: `sacct` succeeding with empty output
("no row") does not fall back to `squeue` — the job is reported unknown,
not completed, even though the `squeue` result is also empty. -/
theorem c8_slurm_poll_counterexample :
    check_slurm_job 0 [] 0 [] = JobState.unknown ∧
    JobState.unknown ≠ JobState.completed := by
  decide

/-- C8 (amended): the fallback to `squeue` happens when the `sacct`
command exits non-zero (not when it returns no rows); in that fallback an
empty or failed `squeue` yields completed and a non-empty one is parsed;
`sacct` exiting zero with empty output yields unknown directly. -/
theorem c8_slurm_poll_amended (sacct_exit squeue_exit : Nat)
    (sacct_out squeue_out : List Char) :
    (sacct_exit ≠ 0 → squeue_exit = 0 → pyStrip squeue_out = [] →
      check_slurm_job sacct_exit sacct_out squeue_exit squeue_out = .completed) ∧
    (sacct_exit ≠ 0 → squeue_exit ≠ 0 →
      check_slurm_job sacct_exit sacct_out squeue_exit squeue_out = .completed) ∧
    (sacct_exit ≠ 0 → squeue_exit = 0 → pyStrip squeue_out ≠ [] →
      check_slurm_job sacct_exit sacct_out squeue_exit squeue_out =
        parse_slurm_state (pyStrip squeue_out)) ∧
    (sacct_exit = 0 → pyStrip sacct_out = [] →
      check_slurm_job sacct_exit sacct_out squeue_exit squeue_out = .unknown) := by
  refine ⟨fun h1 h2 h3 => ?_, fun h1 h2 => ?_, fun h1 h2 h3 => ?_, fun h1 h2 => ?_⟩ <;>
    simp [check_slurm_job, h1, h2, List.isEmpty_iff, *]

/-- Witness for C8 (amended): a failed `sacct` with empty `squeue` output
gives completed; a successful empty `sacct` gives unknown. -/
theorem c8_slurm_poll_amended_witness :
    check_slurm_job 1 [] 0 [] = JobState.completed ∧
    check_slurm_job 0 [] 0 [] = JobState.unknown :=
  ⟨(c8_slurm_poll_amended 1 0 [] []).1 (by decide) rfl rfl,
   (c8_slurm_poll_amended 0 0 [] []).2.2.2 rfl rfl⟩

/-- Counterexample for C9 as stated: a job set whose only job is in the
non-terminal state `unknown` is not active, so the monitoring loop
terminates normally at once — yet not every job ended terminal. -/
theorem c9_terminal_counterexample :
    monitor_loop (fun _ _ => JobState.unknown) 5 0 [JobState.unknown] =
      some [JobState.unknown] ∧
    terminal_job_state JobState.unknown = false := by
  decide

/-- C9 (amended): the loop exits normally exactly when no job is pending
or running; since the active set is {pending, running}, normal
termination guarantees every job is terminal **or unknown** (not
necessarily terminal, `unknown` being non-terminal). -/
theorem c9_terminal_amended (oracle : Nat → Nat → JobState)
    (fuel cycle : Nat) (states final : List JobState) :
    (monitor_loop oracle fuel cycle states = some final →
      has_active_jobs final = false) ∧
    (has_active_jobs states = false →
      monitor_loop oracle fuel cycle states = some states) ∧
    (has_active_jobs final = false ↔
      ∀ s ∈ final, terminal_job_state s = true ∨ s = JobState.unknown) := by
  refine ⟨?_, ?_, ?_⟩
  · induction fuel generalizing cycle states with
    | zero =>
      intro h
      rw [monitor_loop] at h
      by_cases ha : has_active_jobs states = true
      · rw [if_pos ha] at h; cases h
      · rw [if_neg ha] at h
        cases h
        exact Bool.not_eq_true _ ▸ Bool.eq_false_iff.2 ha
    | succ n ih =>
      intro h
      rw [monitor_loop] at h
      by_cases ha : has_active_jobs states = true
      · rw [if_pos ha] at h
        by_cases hb : has_active_jobs (check_all_jobs (oracle cycle) 0 states) = true
        · rw [if_pos hb] at h
          exact ih (cycle + 1) _ h
        · rw [if_neg hb] at h
          cases h
          exact Bool.eq_false_iff.2 hb
      · rw [if_neg ha] at h
        cases h
        exact Bool.eq_false_iff.2 ha
  · intro h
    cases fuel <;> simp [monitor_loop, h]
  · constructor
    · intro h s hs
      have hne : ¬(s == JobState.pending || s == JobState.running) = true := by
        intro hc
        have hany : (final.any fun t => t == JobState.pending || t == JobState.running)
            = true := List.any_eq_true.2 ⟨s, hs, hc⟩
        rw [has_active_jobs, hany] at h
        cases h
      cases s <;> simp_all [terminal_job_state]
    · intro h
      rw [has_active_jobs, Bool.eq_false_iff]
      intro hc
      obtain ⟨s, hs, hsc⟩ := List.any_eq_true.1 hc
      rcases h s hs with ht | ht
      · cases s <;> simp_all [terminal_job_state]
      · subst ht
        exact absurd hsc (by decide)

/-- Witness for C9 (amended): one pending job whose check reports
completed — the loop terminates normally and the final set is inactive. -/
theorem c9_terminal_amended_witness :
    has_active_jobs [JobState.completed] = false :=
  (c9_terminal_amended (fun _ _ => JobState.completed) 2 0
    [JobState.pending] [JobState.completed]).1 (by decide)

/-! ## Transport: upload integrity verification

Embeds `_verify_file_integrity` and the retry loop of
`_upload_single_file` (`src/transfer.py`).  Hash computation reads files
and can raise, so the two MD5 computations are modelled as `Except`
values; one upload attempt is a pure function of the SFTP put result and
the two hashes, and the `for attempt in range(retry_times)` loop returns
the index of the first successful attempt (`none` = every attempt raised
and the last exception propagates). -/

/-- Embedding of `_verify_file_integrity`: compare the two MD5 digests;
any exception while computing them is caught and reported as success. -/
def verify_file_integrity
    (local_hash remote_hash : Except (List Char) (List Char)) : Bool :=
  match local_hash, remote_hash with
  | .ok a, .ok b => a == b
  | _, _ => true

/-- One attempt of `_upload_single_file`'s transfer loop: the put itself
may raise; on success, checksum verification runs only when enabled and
the file is not a line-ending-rewritten script, and a `false` verdict
raises `TransferError` (failing the attempt). -/
def upload_attempt (checksum_enabled is_script : Bool)
    (put_result : Except (List Char) Unit)
    (local_hash remote_hash : Except (List Char) (List Char)) : Bool :=
  match put_result with
  | .error _ => false
  | .ok _ =>
    if checksum_enabled && !is_script then
      verify_file_integrity local_hash remote_hash
    else true

/-- The `for attempt in range(retry_times)` loop: index of the first
successful attempt, `none` after exhausting all retries. -/
def upload_retry_go (attempt_ok : Nat → Bool) : Nat → Nat → Option Nat
  | _, 0 => none
  | i, n + 1 => if attempt_ok i then some i else upload_retry_go attempt_ok (i + 1) n

/-- Retry wrapper of `_upload_single_file`. -/
def upload_with_retry (retry_times : Nat) (attempt_ok : Nat → Bool) : Option Nat :=
  upload_retry_go attempt_ok 0 retry_times

/-- C10: with checksum verification enabled, if computing either MD5 hash
raises, integrity verification reports success and the upload succeeds on
the first attempt — the transfer is never failed or retried because its
checksum could not be computed. -/
theorem c10_checksum_lenient (retry_times : Nat) (h1 : 1 ≤ retry_times)
    (is_script : Bool) (lh rh : Except (List Char) (List Char))
    (herr : (∃ e, lh = .error e) ∨ (∃ e, rh = .error e)) :
    verify_file_integrity lh rh = true ∧
    upload_with_retry retry_times
      (fun _ => upload_attempt true is_script (.ok ()) lh rh) = some 0 := by
  have hv : verify_file_integrity lh rh = true := by
    rcases herr with ⟨e, he⟩ | ⟨e, he⟩ <;> subst he
    · cases rh <;> rfl
    · cases lh <;> rfl
  refine ⟨hv, ?_⟩
  obtain ⟨n, rfl⟩ : ∃ n, retry_times = n + 1 :=
    ⟨retry_times - 1, by omega⟩
  have hatt : upload_attempt true is_script (.ok ()) lh rh = true := by
    rw [upload_attempt]
    cases is_script <;> simp [hv]
  simp [upload_with_retry, upload_retry_go, hatt]

/-- Witness for C10: three retries, a local-hash read failure, checksum
verification enabled on a non-script file — verification passes and the
upload succeeds on attempt 0. -/
theorem c10_checksum_lenient_witness :
    verify_file_integrity (.error "io error".data) (.ok "d41d8cd9".data) = true ∧
    upload_with_retry 3
      (fun _ => upload_attempt true false (.ok ())
        (.error "io error".data) (.ok "d41d8cd9".data)) = some 0 :=
  c10_checksum_lenient 3 (by decide) false
    (.error "io error".data) (.ok "d41d8cd9".data)
    (Or.inl ⟨"io error".data, rfl⟩)

/-! ## Placement engine

Embeds the four strategies of `NodeAllocationManager`
(`src/allocation.py`): `_batch_allocation`, `_node_reuse`,
`_smart_queue` and `_hybrid_allocation`.  Node and job dicts become
records (a job's `cpus`/`memory` keys may be absent, hence `Option`;
`job.get("cpus", tasks_per_node)` and `job.get("memory", 0)` are the two
defaults used).  The `allocation_time` timestamp and the unread
per-node `allocated_jobs` counter of `_node_reuse` are dropped;
`_smart_queue` keeps its counter because the load factor reads it.
Python float scoring is modelled with exact rationals. -/

/-- The node-dict fields read by the strategies. -/
structure Node where
  name : List Char
  cpus : Nat
  memory : Nat
  partition : List Char
  deriving DecidableEq, Repr

/-- The job-dict fields read by the strategies (`None` = key absent). -/
structure Job where
  cpus? : Option Nat
  memory? : Option Nat
  deriving DecidableEq, Repr

/-- The configuration fields read by the strategies. -/
structure AllocConfig where
  tasks_per_node : Nat
  max_concurrent_jobs : Nat
  deriving Repr

/-- The placement fields written into an allocated-job dict. -/
structure AllocatedJob where
  job : Job
  allocated_node : List Char
  allocated_cpus : Nat
  allocated_memory : Nat
  partition : List Char
  match_score : Option ℚ
  deriving DecidableEq, Repr

/-- Sum of allocated cores over the jobs placed on the named node. -/
def allocated_cpus_on (name : List Char) : List AllocatedJob → Nat
  | [] => 0
  | a :: l =>
    (if a.allocated_node = name then a.allocated_cpus else 0) +
      allocated_cpus_on name l

/-- Embedding of the `_batch_allocation` loop: `cursor` is `node_index`,
reset to 0 once it reaches the node count and advanced only when a job is
actually placed.  An empty node list makes Python raise `IndexError`;
here the recursion just stops. -/
def batch_allocation_go (cfg : AllocConfig) (nodes : List Node) :
    List Job → Nat → List AllocatedJob
  | [], _ => []
  | job :: rest, cursor =>
    let idx := if cursor ≥ nodes.length then 0 else cursor
    match nodes.get? idx with
    | none => []
    | some node =>
      let req := job.cpus?.getD cfg.tasks_per_node
      if node.cpus ≥ req then
        ⟨job, node.name, min req node.cpus, node.memory, node.partition, none⟩ ::
          batch_allocation_go cfg nodes rest (idx + 1)
      else batch_allocation_go cfg nodes rest idx

/-- Embedding of `_batch_allocation`. -/
def batch_allocation (cfg : AllocConfig) (nodes : List Node) (jobs : List Job) :
    List AllocatedJob :=
  batch_allocation_go cfg nodes jobs 0

/-- The amended C5 placement model, following the spec's words as
corrected: the job considered next goes to `nodes[p mod N]` where `p`
counts the previously *placed* jobs, receiving `min(required, cores)`;
otherwise it is skipped (with a warning) and `p` does not advance. -/
def round_robin_spec_go (cfg : AllocConfig) (nodes : List Node) :
    List Job → Nat → List AllocatedJob
  | [], _ => []
  | job :: rest, placed =>
    match nodes.get? (placed % nodes.length) with
    | none => []
    | some node =>
      let req := job.cpus?.getD cfg.tasks_per_node
      if node.cpus ≥ req then
        ⟨job, node.name, min req node.cpus, node.memory, node.partition, none⟩ ::
          round_robin_spec_go cfg nodes rest (placed + 1)
      else round_robin_spec_go cfg nodes rest placed

/-- Per-node running resources of `_node_reuse`. -/
structure NodeRes where
  node : Node
  remaining_cpus : Nat
  remaining_memory : Nat
  deriving DecidableEq, Repr

/-- The inner search of `_node_reuse`: the first node whose remaining
resources fit the job, with its resources debited. -/
def nr_assign (req reqM : Nat) : List NodeRes → Option (Node × List NodeRes)
  | [] => none
  | r :: rs =>
    if req ≤ r.remaining_cpus ∧ reqM ≤ r.remaining_memory then
      some (r.node,
        ⟨r.node, r.remaining_cpus - req, r.remaining_memory - reqM⟩ :: rs)
    else
      match nr_assign req reqM rs with
      | none => none
      | some (n, rs') => some (n, r :: rs')

/-- The job loop of `_node_reuse`. -/
def node_reuse_go (cfg : AllocConfig) : List Job → List NodeRes → List AllocatedJob
  | [], _ => []
  | job :: rest, st =>
    let req := job.cpus?.getD cfg.tasks_per_node
    let reqM := job.memory?.getD 0
    match nr_assign req reqM st with
    | some (n, st') =>
      ⟨job, n.name, req, reqM, n.partition, none⟩ :: node_reuse_go cfg rest st'
    | none => node_reuse_go cfg rest st

/-- Embedding of `_node_reuse`. -/
def node_reuse (cfg : AllocConfig) (nodes : List Node) (jobs : List Job) :
    List AllocatedJob :=
  node_reuse_go cfg jobs (nodes.map fun n => ⟨n, n.cpus, n.memory⟩)

/-- Per-node running resources of `_smart_queue` (the job counter feeds
the load factor). -/
structure SNodeRes where
  node : Node
  remaining_cpus : Nat
  remaining_memory : Nat
  job_count : Nat
  deriving DecidableEq, Repr

/-- The match score of `_smart_queue`:
`(cpu_ratio + memory_ratio) * load_factor` (rational model of the float
arithmetic; `max … 1` mirrors the two `max(…, 1)` guards). -/
def sq_score (cfg : AllocConfig) (req reqM : Nat) (r : SNodeRes) : ℚ :=
  ((req : ℚ) / (r.node.cpus : ℚ) + (reqM : ℚ) / ((max r.node.memory 1 : Nat) : ℚ)) *
    (1 - (r.job_count : ℚ) / ((max cfg.max_concurrent_jobs 1 : Nat) : ℚ))

/-- The best-node scan of `_smart_queue`: index of the feasible node with
the strictly highest score seen so far (`best_score` starts at −1). -/
def sq_select_go (cfg : AllocConfig) (req reqM : Nat) :
    List SNodeRes → Nat → Option Nat → ℚ → Option Nat
  | [], _, best, _ => best
  | r :: rs, i, best, bestScore =>
    if req ≤ r.remaining_cpus ∧ reqM ≤ r.remaining_memory then
      if bestScore < sq_score cfg req reqM r then
        sq_select_go cfg req reqM rs (i + 1) (some i) (sq_score cfg req reqM r)
      else sq_select_go cfg req reqM rs (i + 1) best bestScore
    else sq_select_go cfg req reqM rs (i + 1) best bestScore

/-- Best-node selection over the whole resource list. -/
def sq_select (cfg : AllocConfig) (req reqM : Nat) (st : List SNodeRes) :
    Option Nat :=
  sq_select_go cfg req reqM st 0 none (-1)

/-- Debit the chosen node's resources and bump its job counter. -/
def sq_update (req reqM : Nat) (st : List SNodeRes) (i : Nat) : List SNodeRes :=
  match st.get? i with
  | none => st
  | some r =>
    st.set i ⟨r.node, r.remaining_cpus - req, r.remaining_memory - reqM,
      r.job_count + 1⟩

/-- The job loop of `_smart_queue` (jobs arrive already sorted). -/
def smart_queue_go (cfg : AllocConfig) : List Job → List SNodeRes → List AllocatedJob
  | [], _ => []
  | job :: rest, st =>
    let req := job.cpus?.getD cfg.tasks_per_node
    let reqM := job.memory?.getD 0
    match sq_select cfg req reqM st with
    | some i =>
      match st.get? i with
      | some r =>
        ⟨job, r.node.name, req, reqM, r.node.partition,
          some (sq_score cfg req reqM r)⟩ ::
          smart_queue_go cfg rest (sq_update req reqM st i)
      | none => smart_queue_go cfg rest st
    | none => smart_queue_go cfg rest st

/-- One insertion step of the stable descending sort of jobs by required
cores, modelling `sorted(jobs, key=…, reverse=True)`. -/
def insertJobDesc (cfg : AllocConfig) (x : Job) : List Job → List Job
  | [] => [x]
  | y :: ys =>
    if y.cpus?.getD cfg.tasks_per_node < x.cpus?.getD cfg.tasks_per_node then
      x :: y :: ys
    else y :: insertJobDesc cfg x ys

/-- Embedding of `_smart_queue`: sort jobs large-first (stably), then
run the load-aware best-fit loop. -/
def smart_queue (cfg : AllocConfig) (nodes : List Node) (jobs : List Job) :
    List AllocatedJob :=
  smart_queue_go cfg (jobs.foldl (fun acc x => insertJobDesc cfg x acc) [])
    (nodes.map fun n => ⟨n, n.cpus, n.memory, 0⟩)

/-- Embedding of `_hybrid_allocation`: pick a strategy from the job
density `len(jobs) / max(len(nodes), 1)` (rational model of the float
quotient). -/
def hybrid_allocation (cfg : AllocConfig) (nodes : List Node) (jobs : List Job) :
    List AllocatedJob :=
  if (jobs.length : ℚ) / ((max nodes.length 1 : Nat) : ℚ) ≤ 1 then
    batch_allocation cfg nodes jobs
  else if (jobs.length : ℚ) / ((max nodes.length 1 : Nat) : ℚ) ≤ 3 then
    smart_queue cfg nodes jobs
  else node_reuse cfg nodes jobs

theorem round_robin_spec_go_mod (cfg : AllocConfig) (nodes : List Node)
    (hN : 0 < nodes.length) :
    ∀ (jobs : List Job) (p : Nat),
      round_robin_spec_go cfg nodes jobs p =
        round_robin_spec_go cfg nodes jobs (p % nodes.length) := by
  intro jobs
  induction jobs with
  | nil => intro p; rfl
  | cons job rest ih =>
    intro p
    rw [round_robin_spec_go, round_robin_spec_go,
      Nat.mod_mod_of_dvd p dvd_rfl]
    cases hg : nodes.get? (p % nodes.length) with
    | none => rfl
    | some node =>
      by_cases hfit : node.cpus ≥ job.cpus?.getD cfg.tasks_per_node
      · simp only [hfit, if_true]
        rw [ih (p + 1), ih (p % nodes.length + 1)]
        congr 1
        conv_lhs => rw [Nat.add_mod]
        conv_rhs => rw [Nat.add_mod]
        rw [Nat.mod_mod_of_dvd p dvd_rfl]
      · simp only [hfit, if_false]
        rw [ih p, ih (p % nodes.length), Nat.mod_mod_of_dvd p dvd_rfl]

theorem batch_allocation_go_eq_spec (cfg : AllocConfig) (nodes : List Node)
    (hN : 0 < nodes.length) :
    ∀ (jobs : List Job) (c : Nat), c ≤ nodes.length →
      batch_allocation_go cfg nodes jobs c =
        round_robin_spec_go cfg nodes jobs c := by
  intro jobs
  induction jobs with
  | nil => intro c _; rfl
  | cons job rest ih =>
    intro c hc
    rw [batch_allocation_go, round_robin_spec_go]
    rcases Nat.lt_or_ge c nodes.length with hlt | hge
    · have hidx : (if c ≥ nodes.length then 0 else c) = c := by
        simp [Nat.not_le.2 hlt]
      have hmod : c % nodes.length = c := Nat.mod_eq_of_lt hlt
      rw [hidx, hmod]
      cases hg : nodes.get? c with
      | none => rfl
      | some node =>
        by_cases hfit : node.cpus ≥ job.cpus?.getD cfg.tasks_per_node
        · simp only [hfit, if_true]
          rw [ih (c + 1) hlt]
        · simp only [hfit, if_false]
          rw [ih c hc]
    · have hceq : c = nodes.length := le_antisymm hc hge
      subst hceq
      have hidx : (if nodes.length ≥ nodes.length then 0 else nodes.length) = 0 := by
        simp
      rw [hidx, Nat.mod_self]
      cases hg : nodes.get? 0 with
      | none => rfl
      | some node =>
        have hmm : (nodes.length + 1) % nodes.length = 1 % nodes.length := by
          rw [Nat.add_mod, Nat.mod_self, Nat.zero_add,
            Nat.mod_mod_of_dvd 1 dvd_rfl]
        by_cases hfit : node.cpus ≥ job.cpus?.getD cfg.tasks_per_node
        · simp only [hfit, if_true, Nat.zero_add]
          congr 1
          calc batch_allocation_go cfg nodes rest 1
              = round_robin_spec_go cfg nodes rest 1 := ih 1 hN
            _ = round_robin_spec_go cfg nodes rest (1 % nodes.length) :=
                round_robin_spec_go_mod cfg nodes hN rest 1
            _ = round_robin_spec_go cfg nodes rest
                  ((nodes.length + 1) % nodes.length) := by rw [hmm]
            _ = round_robin_spec_go cfg nodes rest (nodes.length + 1) :=
                (round_robin_spec_go_mod cfg nodes hN rest (nodes.length + 1)).symm
        · simp only [hfit, if_false]
          calc batch_allocation_go cfg nodes rest 0
              = round_robin_spec_go cfg nodes rest 0 := ih 0 (Nat.zero_le _)
            _ = round_robin_spec_go cfg nodes rest (nodes.length % nodes.length) := by
                rw [Nat.mod_self]
            _ = round_robin_spec_go cfg nodes rest nodes.length :=
                (round_robin_spec_go_mod cfg nodes hN rest nodes.length).symm

/-- Counterexample for C5 as stated: with descending-capacity nodes
`n1(100)`, `n2(4)` and jobs requiring 200 and 4 cores, job 0 is skipped
(200 fits nowhere it is offered), and job 1 — which the claim sends to
`nodes[1 mod 2] = n2` — is placed on `n1`, because the cursor advances
only on successful placement. -/
theorem c5_round_robin_counterexample :
    (batch_allocation ⟨8, 4⟩
        [⟨"n1".data, 100, 100, []⟩, ⟨"n2".data, 4, 100, []⟩]
        [⟨some 200, some 0⟩, ⟨some 4, some 0⟩]).map
      AllocatedJob.allocated_node = ["n1".data] ∧
    ([⟨"n1".data, 100, 100, []⟩, ⟨"n2".data, 4, 100, []⟩] :
        List Node).get? (1 % 2) = some ⟨"n2".data, 4, 100, []⟩ ∧
    "n1".data ≠ "n2".data := by
  decide

/-- C5 (amended): `_batch_allocation` places each job on
`nodes[p mod N]` where `p` counts the previously placed jobs (the cursor
advances only on successful placement, not per job index), allocating
`min(required, cores)`; unplaceable jobs are skipped with a warning. -/
theorem c5_round_robin_amended (cfg : AllocConfig) (nodes : List Node)
    (jobs : List Job) :
    batch_allocation cfg nodes jobs = round_robin_spec_go cfg nodes jobs 0 := by
  cases hn : nodes with
  | nil =>
    cases jobs with
    | nil => rfl
    | cons job rest => rfl
  | cons n ns =>
    exact batch_allocation_go_eq_spec cfg (n :: ns) (by simp) jobs 0
      (Nat.zero_le _)

theorem allocated_cpus_on_cons (a : AllocatedJob) (l : List AllocatedJob)
    (name : List Char) :
    allocated_cpus_on name (a :: l) =
      (if a.allocated_node = name then a.allocated_cpus else 0) +
        allocated_cpus_on name l := rfl

theorem batch_go_bound (cfg : AllocConfig) (nodes : List Node)
    (hinj : ∀ i j : Fin nodes.length,
      (nodes.get i).name = (nodes.get j).name → i = j) :
    ∀ (jobs : List Job) (cursor : Nat), cursor + jobs.length ≤ nodes.length →
      ∀ i : Fin nodes.length,
        allocated_cpus_on (nodes.get i).name
            (batch_allocation_go cfg nodes jobs cursor) ≤
          (if i.val < cursor then 0 else (nodes.get i).cpus) := by
  intro jobs
  induction jobs with
  | nil =>
    intro cursor _ i
    rw [batch_allocation_go, allocated_cpus_on]
    exact Nat.zero_le _
  | cons job rest ih =>
    intro cursor hlen i
    have hcur : cursor < nodes.length := by
      simp only [List.length_cons] at hlen
      omega
    have hlen' : cursor + 1 + rest.length ≤ nodes.length := by
      simp only [List.length_cons] at hlen
      omega
    rw [batch_allocation_go]
    have hidx : (if cursor ≥ nodes.length then 0 else cursor) = cursor := by
      simp [Nat.not_le.2 hcur]
    rw [hidx, List.get?_eq_get hcur]
    by_cases hfit :
        (nodes.get ⟨cursor, hcur⟩).cpus ≥ job.cpus?.getD cfg.tasks_per_node
    · simp only [hfit, if_true, allocated_cpus_on_cons]
      by_cases hname : (nodes.get ⟨cursor, hcur⟩).name = (nodes.get i).name
      · have hieq : i = ⟨cursor, hcur⟩ := (hinj _ _ hname).symm
        subst hieq
        have hrec := ih (cursor + 1) hlen' ⟨cursor, hcur⟩
        rw [if_pos (Nat.lt_succ_self cursor)] at hrec
        rw [if_neg (Nat.lt_irrefl cursor), if_pos rfl]
        have hmin := Nat.min_le_right (job.cpus?.getD cfg.tasks_per_node)
          (nodes.get ⟨cursor, hcur⟩).cpus
        omega
      · simp only [if_neg hname, Nat.zero_add]
        have hrec := ih (cursor + 1) hlen' i
        rcases Nat.lt_trichotomy i.val cursor with hlt | heq | hgt
        · rw [if_pos hlt]
          rw [if_pos (by omega)] at hrec
          omega
        · exact absurd (congrArg Node.name
            (congrArg nodes.get (Fin.ext heq.symm))) hname
        · rw [if_neg (by omega)]
          rw [if_neg (by omega)] at hrec
          omega
    · simp only [hfit, if_false]
      exact ih cursor (by simp only [List.length_cons] at hlen; omega) i

theorem nr_assign_spec (req reqM : Nat) :
    ∀ (st : List NodeRes) (n : Node) (st' : List NodeRes),
      nr_assign req reqM st = some (n, st') →
      ∃ pre r post, st = pre ++ r :: post ∧
        st' = pre ++
          (⟨r.node, r.remaining_cpus - req, r.remaining_memory - reqM⟩ :
            NodeRes) :: post ∧
        n = r.node ∧ req ≤ r.remaining_cpus ∧ reqM ≤ r.remaining_memory := by
  intro st
  induction st with
  | nil => intro n st' h; cases h
  | cons r rs ih =>
    intro n st' h
    rw [nr_assign] at h
    by_cases hfit : req ≤ r.remaining_cpus ∧ reqM ≤ r.remaining_memory
    · rw [if_pos hfit] at h
      injection h with h'
      injection h' with hn hst
      exact ⟨[], r, rs, rfl, hst.symm, hn.symm, hfit.1, hfit.2⟩
    · rw [if_neg hfit] at h
      cases hrec : nr_assign req reqM rs with
      | none => rw [hrec] at h; cases h
      | some p =>
        rw [hrec] at h
        obtain ⟨n0, rs'⟩ := p
        injection h with h'
        injection h' with hn hst
        obtain ⟨pre, r0, post, h1, h2, h3, h4, h5⟩ := ih n0 rs' hrec
        refine ⟨r :: pre, r0, post, by rw [h1]; rfl, ?_, hn ▸ h3, h4, h5⟩
        rw [← hst, h2]
        rfl

theorem node_reuse_go_bound (cfg : AllocConfig) :
    ∀ (jobs : List Job) (st : List NodeRes),
      (st.map fun r => r.node.name).Nodup →
      ∀ r ∈ st,
        allocated_cpus_on r.node.name (node_reuse_go cfg jobs st) ≤
          r.remaining_cpus := by
  intro jobs
  induction jobs with
  | nil =>
    intro st _ r _
    rw [node_reuse_go, allocated_cpus_on]
    exact Nat.zero_le _
  | cons job rest ih =>
    intro st hnd r hr
    rw [node_reuse_go]
    cases ha : nr_assign (job.cpus?.getD cfg.tasks_per_node)
        (job.memory?.getD 0) st with
    | none => exact ih st hnd r hr
    | some p =>
      obtain ⟨n, st'⟩ := p
      obtain ⟨pre, r0, post, heq, heq', hn, hfc, hfm⟩ :=
        nr_assign_spec _ _ st n st' ha
      have hnames : st'.map (fun r => r.node.name) =
          st.map (fun r => r.node.name) := by
        rw [heq, heq']
        simp [List.map_append]
      have hnd' : (st'.map fun r => r.node.name).Nodup := by
        rw [hnames]; exact hnd
      have hmidn : r0.node.name ∉ (pre ++ post).map fun r => r.node.name := by
        have h2 := hnd
        rw [heq, List.map_append, List.map_cons] at h2
        have h3 := List.nodup_middle.1 h2
        rw [← List.map_append] at h3
        exact (List.nodup_cons.1 h3).1
      rw [allocated_cpus_on_cons]
      rw [heq] at hr
      rcases List.mem_append.1 hr with hpre | hmid
      · have hneq : ¬ n.name = r.node.name := by
          rw [hn]
          intro hc
          apply hmidn
          rw [hc]
          exact List.mem_map_of_mem _ (List.mem_append_left post hpre)
        rw [if_neg hneq, Nat.zero_add]
        have hr' : r ∈ st' := by
          rw [heq']
          exact List.mem_append_left _ hpre
        exact ih st' hnd' r hr'
      · rcases List.mem_cons.1 hmid with hre | hpost
        · subst hre
          have hcond : n.name = r.node.name := by rw [hn]
          rw [if_pos hcond]
          have hupd : (⟨r.node, r.remaining_cpus -
              (job.cpus?.getD cfg.tasks_per_node),
              r.remaining_memory - (job.memory?.getD 0)⟩ : NodeRes) ∈ st' := by
            rw [heq']
            exact List.mem_append_right _ (List.mem_cons_self _ _)
          have hrec := ih st' hnd' _ hupd
          dsimp only at hrec ⊢
          omega
        · have hneq : ¬ n.name = r.node.name := by
            rw [hn]
            intro hc
            exact hmidn (hc ▸ List.mem_map_of_mem (fun r => r.node.name)
              (List.mem_append_right pre hpost))
          rw [if_neg hneq, Nat.zero_add]
          have hr' : r ∈ st' := by
            rw [heq']
            exact List.mem_append_right _ (List.mem_cons_of_mem _ hpost)
          exact ih st' hnd' r hr'

theorem sq_select_go_spec (cfg : AllocConfig) (req reqM : Nat) :
    ∀ (st : List SNodeRes) (i : Nat) (best : Option Nat) (bs : ℚ) (j : Nat),
      sq_select_go cfg req reqM st i best bs = some j →
      best = some j ∨
        ∃ k, ∃ hk : k < st.length, j = i + k ∧
          req ≤ (st.get ⟨k, hk⟩).remaining_cpus ∧
          reqM ≤ (st.get ⟨k, hk⟩).remaining_memory := by
  intro st
  induction st with
  | nil =>
    intro i best bs j h
    exact Or.inl h
  | cons r rs ih =>
    intro i best bs j h
    rw [sq_select_go] at h
    have hshift : ∀ best' bs',
        sq_select_go cfg req reqM rs (i + 1) best' bs' = some j →
        best' = some j ∨
          ∃ k, ∃ hk : k < (r :: rs).length, j = i + k ∧
            req ≤ ((r :: rs).get ⟨k, hk⟩).remaining_cpus ∧
            reqM ≤ ((r :: rs).get ⟨k, hk⟩).remaining_memory := by
      intro best' bs' h'
      rcases ih (i + 1) best' bs' j h' with hl | ⟨k, hk, hjk, h1, h2⟩
      · exact Or.inl hl
      · exact Or.inr ⟨k + 1, by simpa using Nat.succ_lt_succ hk,
          by omega, h1, h2⟩
    by_cases hfit : req ≤ r.remaining_cpus ∧ reqM ≤ r.remaining_memory
    · rw [if_pos hfit] at h
      by_cases hs : bs < sq_score cfg req reqM r
      · rw [if_pos hs] at h
        rcases hshift (some i) (sq_score cfg req reqM r) h with hl | hex
        · injection hl with hij
          exact Or.inr ⟨0, by simp, by omega, by simpa [hij] using hfit.1,
            by simpa [hij] using hfit.2⟩
        · exact Or.inr hex
      · rw [if_neg hs] at h
        exact hshift best bs h
    · rw [if_neg hfit] at h
      exact hshift best bs h

theorem sq_select_spec (cfg : AllocConfig) (req reqM : Nat)
    (st : List SNodeRes) (j : Nat) (h : sq_select cfg req reqM st = some j) :
    ∃ hk : j < st.length,
      req ≤ (st.get ⟨j, hk⟩).remaining_cpus ∧
      reqM ≤ (st.get ⟨j, hk⟩).remaining_memory := by
  rcases sq_select_go_spec cfg req reqM st 0 none (-1) j h with hl | ⟨k, hk, hjk, h1, h2⟩
  · cases hl
  · have hkj : k = j := by omega
    subst hkj
    exact ⟨hk, h1, h2⟩

theorem smart_queue_go_bound (cfg : AllocConfig) :
    ∀ (jobs : List Job) (st : List SNodeRes),
      (st.map fun r => r.node.name).Nodup →
      ∀ r ∈ st,
        allocated_cpus_on r.node.name (smart_queue_go cfg jobs st) ≤
          r.remaining_cpus := by
  intro jobs
  induction jobs with
  | nil =>
    intro st _ r _
    rw [smart_queue_go, allocated_cpus_on]
    exact Nat.zero_le _
  | cons job rest ih =>
    intro st hnd r hr
    rw [smart_queue_go]
    cases hsel : sq_select cfg (job.cpus?.getD cfg.tasks_per_node)
        (job.memory?.getD 0) st with
    | none => exact ih st hnd r hr
    | some i =>
      obtain ⟨hilt, hfc, hfm⟩ := sq_select_spec cfg _ _ st i hsel
      dsimp only
      rw [List.get?_eq_get hilt]
      dsimp only
      have hsplit : st = st.take i ++ st.get ⟨i, hilt⟩ :: st.drop (i + 1) := by
        conv_lhs => rw [← List.take_append_drop i st]
        rw [List.drop_eq_getElem_cons hilt]
        rfl
      have hupdate : sq_update (job.cpus?.getD cfg.tasks_per_node)
          (job.memory?.getD 0) st i =
          st.take i ++
            (⟨(st.get ⟨i, hilt⟩).node,
              (st.get ⟨i, hilt⟩).remaining_cpus -
                job.cpus?.getD cfg.tasks_per_node,
              (st.get ⟨i, hilt⟩).remaining_memory - job.memory?.getD 0,
              (st.get ⟨i, hilt⟩).job_count + 1⟩ : SNodeRes) ::
            st.drop (i + 1) := by
        rw [sq_update, List.get?_eq_get hilt]
        dsimp only
        rw [List.set_eq_take_append_cons_drop]
        simp [hilt]
      set st' := sq_update (job.cpus?.getD cfg.tasks_per_node)
        (job.memory?.getD 0) st i with hst'
      have hnames : st'.map (fun r => r.node.name) =
          st.map (fun r => r.node.name) := by
        rw [hupdate]
        conv_rhs =>
          rw [← List.take_append_drop i (st.map fun r => r.node.name),
            List.drop_eq_getElem_cons (by simpa using hilt)]
        simp
      have hnd' : (st'.map fun r => r.node.name).Nodup := by
        rw [hnames]; exact hnd
      have hmidn : (st.get ⟨i, hilt⟩).node.name ∉
          (st.take i ++ st.drop (i + 1)).map fun r => r.node.name := by
        have h2 := hnd
        rw [hsplit, List.map_append, List.map_cons] at h2
        have h3 := List.nodup_middle.1 h2
        rw [← List.map_append] at h3
        exact (List.nodup_cons.1 h3).1
      rw [allocated_cpus_on_cons]
      rw [hsplit] at hr
      rcases List.mem_append.1 hr with hpre | hmid
      · have hneq : ¬ (st.get ⟨i, hilt⟩).node.name = r.node.name := by
          intro hc
          apply hmidn
          rw [hc]
          exact List.mem_map_of_mem _ (List.mem_append_left _ hpre)
        rw [if_neg hneq, Nat.zero_add]
        have hr' : r ∈ st' := by
          rw [hupdate]
          exact List.mem_append_left _ hpre
        exact ih st' hnd' r hr'
      · rcases List.mem_cons.1 hmid with hre | hpost
        · subst hre
          rw [if_pos rfl]
          have hupd : (⟨(st.get ⟨i, hilt⟩).node,
              (st.get ⟨i, hilt⟩).remaining_cpus -
                job.cpus?.getD cfg.tasks_per_node,
              (st.get ⟨i, hilt⟩).remaining_memory - job.memory?.getD 0,
              (st.get ⟨i, hilt⟩).job_count + 1⟩ : SNodeRes) ∈ st' := by
            rw [hupdate]
            exact List.mem_append_right _ (List.mem_cons_self _ _)
          have hrec := ih st' hnd' _ hupd
          dsimp only at hrec ⊢
          omega
        · have hneq : ¬ (st.get ⟨i, hilt⟩).node.name = r.node.name := by
            intro hc
            apply hmidn
            rw [hc]
            exact List.mem_map_of_mem _ (List.mem_append_right _ hpost)
          rw [if_neg hneq, Nat.zero_add]
          have hr' : r ∈ st' := by
            rw [hupdate]
            exact List.mem_append_right _ (List.mem_cons_of_mem _ hpost)
          exact ih st' hnd' r hr'

theorem names_nodup_inj (nodes : List Node)
    (hnd : (nodes.map Node.name).Nodup) :
    ∀ i j : Fin nodes.length, (nodes.get i).name = (nodes.get j).name → i = j := by
  intro i j h
  have hi : (i : Nat) < (nodes.map Node.name).length := by simpa using i.isLt
  have hj : (j : Nat) < (nodes.map Node.name).length := by simpa using j.isLt
  have hg : (nodes.map Node.name).get ⟨i, hi⟩ =
      (nodes.map Node.name).get ⟨j, hj⟩ := by
    rw [List.get_map, List.get_map]
    simpa using h
  have := hnd.get_inj_iff.1 hg
  exact Fin.ext (by simpa using congrArg Fin.val this)

theorem node_reuse_bound (cfg : AllocConfig) (nodes : List Node)
    (jobs : List Job) (hnd : (nodes.map Node.name).Nodup) :
    ∀ n ∈ nodes, allocated_cpus_on n.name (node_reuse cfg nodes jobs) ≤ n.cpus := by
  intro n hn
  have hmem : (⟨n, n.cpus, n.memory⟩ : NodeRes) ∈
      nodes.map fun m => (⟨m, m.cpus, m.memory⟩ : NodeRes) :=
    List.mem_map_of_mem _ hn
  have hnames : ((nodes.map fun m => (⟨m, m.cpus, m.memory⟩ : NodeRes)).map
      fun r => r.node.name) = nodes.map Node.name := by
    simp [List.map_map]
  exact node_reuse_go_bound cfg jobs _ (by rw [hnames]; exact hnd) _ hmem

theorem smart_queue_bound (cfg : AllocConfig) (nodes : List Node)
    (jobs : List Job) (hnd : (nodes.map Node.name).Nodup) :
    ∀ n ∈ nodes, allocated_cpus_on n.name (smart_queue cfg nodes jobs) ≤ n.cpus := by
  intro n hn
  have hmem : (⟨n, n.cpus, n.memory, 0⟩ : SNodeRes) ∈
      nodes.map fun m => (⟨m, m.cpus, m.memory, 0⟩ : SNodeRes) :=
    List.mem_map_of_mem _ hn
  have hnames : ((nodes.map fun m => (⟨m, m.cpus, m.memory, 0⟩ : SNodeRes)).map
      fun r => r.node.name) = nodes.map Node.name := by
    simp [List.map_map]
  exact smart_queue_go_bound cfg
    (jobs.foldl (fun acc x => insertJobDesc cfg x acc) []) _
    (by rw [hnames]; exact hnd) _ hmem

theorem batch_allocation_bound (cfg : AllocConfig) (nodes : List Node)
    (jobs : List Job) (hnd : (nodes.map Node.name).Nodup)
    (hJ : jobs.length ≤ nodes.length) :
    ∀ n ∈ nodes,
      allocated_cpus_on n.name (batch_allocation cfg nodes jobs) ≤ n.cpus := by
  intro n hn
  obtain ⟨i, hget⟩ := List.mem_iff_get.1 hn
  have := batch_go_bound cfg nodes (names_nodup_inj nodes hnd) jobs 0
    (by omega) i
  rw [if_neg (Nat.not_lt_zero _)] at this
  rw [← hget]
  exact this

theorem hybrid_allocation_bound (cfg : AllocConfig) (nodes : List Node)
    (jobs : List Job) (hnd : (nodes.map Node.name).Nodup) :
    ∀ n ∈ nodes,
      allocated_cpus_on n.name (hybrid_allocation cfg nodes jobs) ≤ n.cpus := by
  intro n hn
  have hN : 1 ≤ nodes.length := by
    cases nodes with
    | nil => cases hn
    | cons a l => simp
  have hmax : (max nodes.length 1 : Nat) = nodes.length := by omega
  rw [hybrid_allocation, hmax]
  by_cases h1 : ((jobs.length : ℚ) / (nodes.length : ℚ)) ≤ 1
  · rw [if_pos h1]
    have hpos : (0 : ℚ) < (nodes.length : ℚ) := by
      exact_mod_cast Nat.lt_of_lt_of_le Nat.zero_lt_one hN
    have hJ : jobs.length ≤ nodes.length := by
      have := (div_le_one hpos).1 h1
      exact_mod_cast this
    exact batch_allocation_bound cfg nodes jobs hnd hJ n hn
  · rw [if_neg h1]
    by_cases h3 : ((jobs.length : ℚ) / (nodes.length : ℚ)) ≤ 3
    · rw [if_pos h3]
      exact smart_queue_bound cfg nodes jobs hnd n hn
    · rw [if_neg h3]
      exact node_reuse_bound cfg nodes jobs hnd n hn

/-- Counterexample for C1 as stated: `batch_allocation` wraps its cursor
around without tracking remaining capacity, so one 32-core node `a`
offered two 32-core jobs receives both — 64 allocated cores on a 32-core
node. -/
theorem c1_core_bound_counterexample :
    allocated_cpus_on "a".data
        (batch_allocation ⟨32, 4⟩ [⟨"a".data, 32, 64000, []⟩]
          [⟨some 32, some 0⟩, ⟨some 32, some 0⟩]) = 64 ∧
    ¬ allocated_cpus_on "a".data
        (batch_allocation ⟨32, 4⟩ [⟨"a".data, 32, 64000, []⟩]
          [⟨some 32, some 0⟩, ⟨some 32, some 0⟩]) ≤ 32 := by
  decide

/-- C1 (amended): for node lists with distinct names and positive core
counts (the shape `allocate_nodes` feeds the strategies after filtering;
positivity also keeps the rational score model inside the region where
Python does not raise `ZeroDivisionError`), `node_reuse`, `smart_queue`
and `hybrid` keep every node's allocated core sum within its capacity,
and `batch_allocation` does so when jobs do not outnumber nodes; with
more jobs than nodes `batch_allocation` can exceed a node's capacity
(see the counterexample). -/
theorem c1_core_bound_amended (cfg : AllocConfig) (nodes : List Node)
    (jobs : List Job) (hnd : (nodes.map Node.name).Nodup)
    (hcpu : ∀ n ∈ nodes, 0 < n.cpus) :
    (∀ n ∈ nodes,
      allocated_cpus_on n.name (node_reuse cfg nodes jobs) ≤ n.cpus) ∧
    (∀ n ∈ nodes,
      allocated_cpus_on n.name (smart_queue cfg nodes jobs) ≤ n.cpus) ∧
    (∀ n ∈ nodes,
      allocated_cpus_on n.name (hybrid_allocation cfg nodes jobs) ≤ n.cpus) ∧
    (jobs.length ≤ nodes.length → ∀ n ∈ nodes,
      allocated_cpus_on n.name (batch_allocation cfg nodes jobs) ≤ n.cpus) :=
  ⟨node_reuse_bound cfg nodes jobs hnd,
   smart_queue_bound cfg nodes jobs hnd,
   hybrid_allocation_bound cfg nodes jobs hnd,
   fun hJ => batch_allocation_bound cfg nodes jobs hnd hJ⟩

/-- Witness for C1 (amended) on two nodes and three 2-core jobs. -/
theorem c1_core_bound_amended_witness :
    allocated_cpus_on "a".data
      (node_reuse ⟨8, 4⟩
        [⟨"a".data, 4, 100, []⟩, ⟨"b".data, 2, 100, []⟩]
        [⟨some 2, some 0⟩, ⟨some 2, some 0⟩, ⟨some 2, some 0⟩]) ≤ 4 :=
  (c1_core_bound_amended ⟨8, 4⟩
    [⟨"a".data, 4, 100, []⟩, ⟨"b".data, 2, 100, []⟩]
    [⟨some 2, some 0⟩, ⟨some 2, some 0⟩, ⟨some 2, some 0⟩]
    (by decide) (by decide)).1 ⟨"a".data, 4, 100, []⟩ (by decide)

end AutoExSim
